import Mathlib

/-!
Verification of the scany (KF edition) row-scanning library against its
natural-language specification.

The development shallowly embeds the Go sources:
* `src/pgxscan/pgxscan.go` — the name normalizer `toSnakeCase` (two regex
  passes plus lowercasing), the `Insert` SQL builder, the `ScanOne` / `NotFound`
  error translation and the `RowsAdapter`.
* the `dbscan` core (row scanner state machine, struct field index,
  row materializer).  Its Go source is not part of this repository snapshot
  (only its tests are), so those definitions are modelled from the spec,
  and are marked as such in their doc comments.

Go machine details are modelled as follows: strings are `String` / `List Char`
(the inputs of interest are ASCII identifiers), Go `error` values are
`Option GoErr` (`none` = nil), fallible operations return `Except`.
Regex scanning loops are written with an explicit fuel argument equal to the
input length so that every definition is structurally recursive and hence
evaluable by the kernel.
-/

namespace Scany

/-! ## Character classes used by the regexes of pgxscan.go

`matchFirstCap = (.)([A-Z][a-z]+)` and `matchAllCap = ([a-z0-9])([A-Z])`
use the ASCII ranges below.  Character classes are expressed on code points
so that facts about them reduce to `Nat` arithmetic. -/

/-- ASCII `[a-z]`. -/
def isLowerAZ (c : Char) : Bool :=
  97 ≤ c.toNat && c.toNat ≤ 122

/-- ASCII `[A-Z]`. -/
def isUpperAZ (c : Char) : Bool :=
  65 ≤ c.toNat && c.toNat ≤ 90

/-- ASCII `[0-9]`. -/
def isDigit09 (c : Char) : Bool :=
  48 ≤ c.toNat && c.toNat ≤ 57

/-- `strings.ToLower` restricted to ASCII: maps `A`–`Z` to `a`–`z` and leaves
everything else unchanged (the identifiers the library normalizes are ASCII). -/
def asciiLower (c : Char) : Char :=
  if isUpperAZ c then Char.ofNat (c.toNat + 32) else c

/-! ## The name normalizer `toSnakeCase`

Source (pgxscan.go):
```
var matchFirstCap = regexp.MustCompile("(.)([A-Z][a-z]+)")
var matchAllCap   = regexp.MustCompile("([a-z0-9])([A-Z])")
func toSnakeCase(str string) string {
    snake := matchFirstCap.ReplaceAllString(str, "${1}_${2}")
    snake  = matchAllCap.ReplaceAllString(snake, "${1}_${2}")
    return strings.ToLower(snake)
}
```
`ReplaceAllString` scans for the leftmost match, replaces it and resumes
scanning right after the end of the match.  Each scan below carries a fuel
that starts at the input length; every step consumes at least one character
and one unit of fuel, so the fuel never runs out on the wrapper's call. -/

/-- One `ReplaceAllString` pass of `matchFirstCap = (.)([A-Z][a-z]+)`,
replacement `${1}_${2}`.  `.` matches any character except a newline;
`[a-z]+` is greedy, and scanning resumes after the matched text. -/
def firstCapGo : Nat → List Char → List Char
  | 0, cs => cs
  | _ + 1, [] => []
  | fuel + 1, c :: cs =>
    match cs with
    | [] => [c]
    | d :: rest =>
      if (c != '\n') && isUpperAZ d &&
          (match rest with | r :: _ => isLowerAZ r | [] => false) then
        c :: '_' :: d :: (rest.takeWhile isLowerAZ ++
          firstCapGo fuel (rest.dropWhile isLowerAZ))
      else
        c :: firstCapGo fuel cs

/-- One `ReplaceAllString` pass of `matchAllCap = ([a-z0-9])([A-Z])`,
replacement `${1}_${2}`; scanning resumes after the matched two characters. -/
def allCapGo : Nat → List Char → List Char
  | 0, cs => cs
  | _ + 1, [] => []
  | fuel + 1, c :: cs =>
    match cs with
    | [] => [c]
    | d :: rest =>
      if (isLowerAZ c || isDigit09 c) && isUpperAZ d then
        c :: '_' :: d :: allCapGo fuel rest
      else
        c :: allCapGo fuel cs

/-- `matchFirstCap.ReplaceAllString(str, "${1}_${2}")` on a character list. -/
def replFirstCap (cs : List Char) : List Char :=
  firstCapGo cs.length cs

/-- `matchAllCap.ReplaceAllString(snake, "${1}_${2}")` on a character list. -/
def replAllCap (cs : List Char) : List Char :=
  allCapGo cs.length cs

/-- `toSnakeCase` from pgxscan.go: the two regex passes followed by
`strings.ToLower`. -/
def toSnakeCase (s : String) : String :=
  ⟨(replAllCap (replFirstCap s.data)).map asciiLower⟩

example : toSnakeCase "FooColumn" = "foo_column" := by decide
example : toSnakeCase "Bar" = "bar" := by decide
example : toSnakeCase "FooBarBaz" = "foo_bar_baz" := by decide
example : toSnakeCase "UserAge" = "user_age" := by decide
example : toSnakeCase "foo_column" = "foo_column" := by decide
example : toSnakeCase "FooNested" = "foo_nested" := by decide

/-! ## Capitalized word segments

An identifier "composed of capitalized word segments" is the concatenation of
segments, each an uppercase letter followed by a nonempty lowercase run. -/

/-- One capitalized word segment: an uppercase head and its lowercase tail. -/
structure Seg where
  chead : Char
  ctail : List Char
deriving DecidableEq

/-- The characters of one segment. -/
def segChars (s : Seg) : List Char := s.chead :: s.ctail

/-- Well-formedness of a capitalized word segment. -/
def SegWF (s : Seg) : Prop :=
  isUpperAZ s.chead = true ∧ s.ctail ≠ [] ∧ ∀ c ∈ s.ctail, isLowerAZ c = true

instance (s : Seg) : Decidable (SegWF s) := by
  unfold SegWF; infer_instance

/-- The characters of a segment list, concatenated. -/
def segsChars (segs : List Seg) : List Char := (segs.map segChars).flatten

/-- What the first regex pass produces on a segment list: because a match of
`(.)([A-Z][a-z]+)` consumes the whole following lowercase run, scanning
resumes after it and only every other junction receives an underscore. -/
def pass1 : List Seg → List Char
  | [] => []
  | [s] => segChars s
  | s1 :: s2 :: more => segChars s1 ++ '_' :: segChars s2 ++ pass1 more

/-- The continuation of `pass1` after the first segment has been emitted. -/
def pass1Q : List Seg → List Char
  | [] => []
  | s :: more => '_' :: segChars s ++ pass1 more

/-- The fully underscored rendering of the segments after the first one. -/
def snakeTail : List Seg → List Char
  | [] => []
  | s :: more => '_' :: segChars s ++ snakeTail more

/-- The fully underscored rendering of a segment list. -/
def snakeOf (segs : List Seg) : List Char :=
  List.intercalate ['_'] (segs.map segChars)

/-! ### Character-class facts -/

lemma upper_not_lower {c : Char} (h : isUpperAZ c = true) : isLowerAZ c = false := by
  rw [Bool.eq_false_iff]
  intro ht
  simp only [isUpperAZ, isLowerAZ, Bool.and_eq_true, decide_eq_true_eq] at h ht
  omega

lemma upper_not_digit {c : Char} (h : isUpperAZ c = true) : isDigit09 c = false := by
  rw [Bool.eq_false_iff]
  intro ht
  simp only [isUpperAZ, isDigit09, Bool.and_eq_true, decide_eq_true_eq] at h ht
  omega

lemma lower_not_upper {c : Char} (h : isLowerAZ c = true) : isUpperAZ c = false := by
  rw [Bool.eq_false_iff]
  intro ht
  simp only [isUpperAZ, isLowerAZ, Bool.and_eq_true, decide_eq_true_eq] at h ht
  omega

lemma lower_not_digit {c : Char} (h : isLowerAZ c = true) : isDigit09 c = false := by
  rw [Bool.eq_false_iff]
  intro ht
  simp only [isDigit09, isLowerAZ, Bool.and_eq_true, decide_eq_true_eq] at h ht
  omega

lemma lower_ne_newline {c : Char} (h : isLowerAZ c = true) : (c != '\n') = true := by
  simp only [bne_iff_ne, ne_eq]
  intro hc
  subst hc
  simp [isLowerAZ] at h

lemma usc_not_lower : isLowerAZ '_' = false := by decide

lemma usc_not_digit : isDigit09 '_' = false := by decide

lemma usc_not_upper : isUpperAZ '_' = false := by decide

/-! ### takeWhile / dropWhile over an all-satisfying block -/

lemma takeWhile_app_all {p : Char → Bool} :
    ∀ l1 l2 : List Char, (∀ c ∈ l1, p c = true) →
      (l1 ++ l2).takeWhile p = l1 ++ l2.takeWhile p := by
  intro l1 l2 h
  induction l1 with
  | nil => simp
  | cons c cs ih =>
    have hc : p c = true := h c (List.mem_cons_self c cs)
    simp only [List.cons_append, List.takeWhile_cons, hc, if_true]
    rw [ih (fun x hx => h x (List.mem_cons_of_mem c hx))]

lemma dropWhile_app_all {p : Char → Bool} :
    ∀ l1 l2 : List Char, (∀ c ∈ l1, p c = true) →
      (l1 ++ l2).dropWhile p = l2.dropWhile p := by
  intro l1 l2 h
  induction l1 with
  | nil => simp
  | cons c cs ih =>
    have hc : p c = true := h c (List.mem_cons_self c cs)
    simp only [List.cons_append, List.dropWhile_cons, hc, if_true]
    exact ih (fun x hx => h x (List.mem_cons_of_mem c hx))

lemma takeWhile_not_head {p : Char → Bool} {c : Char} (cs : List Char)
    (h : p c = false) : (c :: cs).takeWhile p = [] := by
  simp [List.takeWhile_cons, h]

lemma dropWhile_not_head {p : Char → Bool} {c : Char} (cs : List Char)
    (h : p c = false) : (c :: cs).dropWhile p = c :: cs := by
  simp [List.dropWhile_cons, h]

/-! ### Shape lemmas for segment renderings -/

lemma pass1_cons (s : Seg) (more : List Seg) :
    pass1 (s :: more) = segChars s ++ pass1Q more := by
  cases more <;> simp [pass1, pass1Q]

lemma segsChars_cons (s : Seg) (more : List Seg) :
    segsChars (s :: more) = segChars s ++ segsChars more := by
  simp [segsChars]

lemma intercalate_usc_singleton (x : List Char) :
    List.intercalate ['_'] [x] = x := by
  simp [List.intercalate]

lemma intercalate_usc_cons2 (x y : List Char) (ys : List (List Char)) :
    List.intercalate ['_'] (x :: y :: ys) =
      x ++ '_' :: List.intercalate ['_'] (y :: ys) := by
  simp only [List.intercalate, List.intersperse]
  simp

lemma snakeOf_cons (s : Seg) (more : List Seg) :
    snakeOf (s :: more) = segChars s ++ snakeTail more := by
  induction more generalizing s with
  | nil => simp [snakeOf, snakeTail, intercalate_usc_singleton]
  | cons s2 more2 ih =>
    rw [snakeOf, List.map_cons, List.map_cons]
    rw [intercalate_usc_cons2]
    have h2 : List.intercalate ['_'] (segChars s2 :: List.map segChars more2)
        = snakeOf (s2 :: more2) := by rw [snakeOf, List.map_cons]
    rw [h2, ih s2, snakeTail]
    simp

/-! ### Step lemmas for the fuelled scans -/

lemma firstCapGo_nil (fuel : Nat) : firstCapGo fuel [] = [] := by
  cases fuel <;> rfl

lemma allCapGo_nil (fuel : Nat) : allCapGo fuel [] = [] := by
  cases fuel <;> rfl

lemma firstCapGo_succ_cons (fuel : Nat) (c d : Char) (rest : List Char) :
    firstCapGo (fuel + 1) (c :: d :: rest) =
      if (c != '\n') && isUpperAZ d &&
          (match rest with | r :: _ => isLowerAZ r | [] => false) then
        c :: '_' :: d :: (rest.takeWhile isLowerAZ ++
          firstCapGo fuel (rest.dropWhile isLowerAZ))
      else
        c :: firstCapGo fuel (d :: rest) := rfl

lemma firstCapGo_succ_single (fuel : Nat) (c : Char) :
    firstCapGo (fuel + 1) [c] = [c] := rfl

lemma firstCapGo_step_nomatch (fuel : Nat) (c d : Char) (rest : List Char)
    (h : isUpperAZ d = false) :
    firstCapGo (fuel + 1) (c :: d :: rest) = c :: firstCapGo fuel (d :: rest) := by
  have hc : ((c != '\n') && isUpperAZ d &&
      (match rest with | r :: _ => isLowerAZ r | [] => false)) = false := by
    rw [h]; simp
  rw [firstCapGo_succ_cons, hc]
  simp

lemma firstCapGo_step_match (fuel : Nat) (c d : Char) (rest : List Char)
    (hc : (c != '\n') = true) (hd : isUpperAZ d = true)
    (hr : (match rest with | r :: _ => isLowerAZ r | [] => false) = true) :
    firstCapGo (fuel + 1) (c :: d :: rest) =
      c :: '_' :: d :: (rest.takeWhile isLowerAZ ++
        firstCapGo fuel (rest.dropWhile isLowerAZ)) := by
  rw [firstCapGo_succ_cons, hc, hd, hr]
  simp

lemma allCapGo_succ_cons (fuel : Nat) (c d : Char) (rest : List Char) :
    allCapGo (fuel + 1) (c :: d :: rest) =
      if (isLowerAZ c || isDigit09 c) && isUpperAZ d then
        c :: '_' :: d :: allCapGo fuel rest
      else
        c :: allCapGo fuel (d :: rest) := rfl

lemma allCapGo_succ_single (fuel : Nat) (c : Char) :
    allCapGo (fuel + 1) [c] = [c] := rfl

lemma allCapGo_step_noupper (fuel : Nat) (c d : Char) (rest : List Char)
    (h : isUpperAZ d = false) :
    allCapGo (fuel + 1) (c :: d :: rest) = c :: allCapGo fuel (d :: rest) := by
  have hc : ((isLowerAZ c || isDigit09 c) && isUpperAZ d) = false := by
    rw [h]; simp
  rw [allCapGo_succ_cons, hc]
  simp

lemma allCapGo_step_nolower (fuel : Nat) (c d : Char) (rest : List Char)
    (h1 : isLowerAZ c = false) (h2 : isDigit09 c = false) :
    allCapGo (fuel + 1) (c :: d :: rest) = c :: allCapGo fuel (d :: rest) := by
  have hc : ((isLowerAZ c || isDigit09 c) && isUpperAZ d) = false := by
    rw [h1, h2]; simp
  rw [allCapGo_succ_cons, hc]
  simp

lemma allCapGo_step_match (fuel : Nat) (c d : Char) (rest : List Char)
    (h1 : isLowerAZ c = true) (hd : isUpperAZ d = true) :
    allCapGo (fuel + 1) (c :: d :: rest) = c :: '_' :: d :: allCapGo fuel rest := by
  have hc : ((isLowerAZ c || isDigit09 c) && isUpperAZ d) = true := by
    rw [h1, hd]; simp
  rw [allCapGo_succ_cons, hc]
  simp

/-! ### The first regex pass on a segment list -/

lemma fcGo_main : ∀ fuel : Nat,
    (∀ segs : List Seg, (∀ s ∈ segs, SegWF s) → (segsChars segs).length ≤ fuel →
      firstCapGo fuel (segsChars segs) = pass1 segs) ∧
    (∀ (T : List Char) (rest : List Seg), T ≠ [] → (∀ c ∈ T, isLowerAZ c = true) →
      (∀ s ∈ rest, SegWF s) → (T ++ segsChars rest).length ≤ fuel →
      firstCapGo fuel (T ++ segsChars rest) = T ++ pass1Q rest) := by
  intro fuel
  induction fuel using Nat.strong_induction_on with
  | _ fuel ih =>
  constructor
  · -- part 1: scanning from the uppercase head of a segment
    intro segs hwf hlen
    cases segs with
    | nil => simpa [segsChars] using firstCapGo_nil fuel
    | cons s more =>
      obtain ⟨hu, htne, hlow⟩ := hwf s (List.mem_cons_self s more)
      obtain ⟨d, ts, hts⟩ : ∃ d ts, s.ctail = d :: ts := by
        cases hct : s.ctail with
        | nil => exact absurd hct htne
        | cons d ts => exact ⟨d, ts, rfl⟩
      have hsc : segsChars (s :: more) = s.chead :: (s.ctail ++ segsChars more) := by
        rw [segsChars_cons, segChars]; rfl
      cases fuel with
      | zero => rw [hsc] at hlen; simp at hlen
      | succ f =>
        have hd : isLowerAZ d = true := hlow d (by rw [hts]; exact List.mem_cons_self d ts)
        have hdu : isUpperAZ d = false := lower_not_upper hd
        have h2 := (ih f (Nat.lt_succ_self f)).2 s.ctail more htne hlow
          (fun x hx => hwf x (List.mem_cons_of_mem s hx))
          (by rw [hsc] at hlen; simpa using Nat.le_of_succ_le_succ hlen)
        rw [hsc, hts]
        rw [hts] at h2
        simp only [List.cons_append] at h2 ⊢
        rw [firstCapGo_step_nomatch f s.chead d (ts ++ segsChars more) hdu]
        rw [h2, pass1_cons, segChars, hts]
        simp
  · -- part 2: scanning inside the lowercase tail of a segment
    intro T rest hTne hTlow hwf hlen
    cases T with
    | nil => exact absurd rfl hTne
    | cons t0 T2 =>
    cases fuel with
    | zero => simp at hlen
    | succ f =>
    cases T2 with
    | cons t1 T3 =>
      -- still inside the lowercase run: no match
      have ht1 : isLowerAZ t1 = true := hTlow t1 (by simp)
      have ht1u : isUpperAZ t1 = false := lower_not_upper ht1
      have h2 := (ih f (Nat.lt_succ_self f)).2 (t1 :: T3) rest (by simp)
        (fun x hx => hTlow x (List.mem_cons_of_mem t0 hx)) hwf
        (by simpa using Nat.le_of_succ_le_succ hlen)
      simp only [List.cons_append] at h2 ⊢
      rw [firstCapGo_step_nomatch f t0 t1 (T3 ++ (segsChars rest)) ht1u]
      rw [h2]
    | nil =>
      -- last character of the run: a match happens iff another segment follows
      have ht0 : isLowerAZ t0 = true := hTlow t0 (by simp)
      cases rest with
      | nil =>
        simp only [segsChars, List.map_nil, List.flatten_nil, List.append_nil,
          List.singleton_append]
        rw [firstCapGo_succ_single]
        simp [pass1Q]
      | cons s more =>
        obtain ⟨hu, htne, hlow⟩ := hwf s (List.mem_cons_self s more)
        obtain ⟨d, ts, hts⟩ : ∃ d ts, s.ctail = d :: ts := by
          cases hct : s.ctail with
          | nil => exact absurd hct htne
          | cons d ts => exact ⟨d, ts, rfl⟩
        have hd : isLowerAZ d = true := hlow d (by rw [hts]; exact List.mem_cons_self d ts)
        have hsc : segsChars (s :: more) = s.chead :: (s.ctail ++ segsChars more) := by
          rw [segsChars_cons, segChars]; rfl
        -- the greedy `[a-z]+` takes exactly the tail of the next segment
        have htake : (s.ctail ++ segsChars more).takeWhile isLowerAZ = s.ctail := by
          rw [takeWhile_app_all s.ctail (segsChars more) hlow]
          cases more with
          | nil => simp [segsChars]
          | cons s2 more2 =>
            obtain ⟨hu2, _, _⟩ := (fun x hx => hwf x (List.mem_cons_of_mem s hx)) s2
              (List.mem_cons_self s2 more2)
            rw [segsChars_cons, segChars, List.cons_append]
            rw [takeWhile_not_head _ (upper_not_lower hu2)]
            simp
        have hdrop : (s.ctail ++ segsChars more).dropWhile isLowerAZ = segsChars more := by
          rw [dropWhile_app_all s.ctail (segsChars more) hlow]
          cases more with
          | nil => simp [segsChars]
          | cons s2 more2 =>
            obtain ⟨hu2, _, _⟩ := (fun x hx => hwf x (List.mem_cons_of_mem s hx)) s2
              (List.mem_cons_self s2 more2)
            rw [segsChars_cons, segChars, List.cons_append]
            exact dropWhile_not_head _ (upper_not_lower hu2)
        have h1 := (ih f (Nat.lt_succ_self f)).1 more
          (fun x hx => hwf x (List.mem_cons_of_mem s hx))
          (by
            rw [hsc] at hlen
            simp only [List.length_append, List.singleton_append, List.length_cons] at hlen ⊢
            omega)
        have hr : (match s.ctail ++ segsChars more with
            | r :: _ => isLowerAZ r | [] => false) = true := by
          rw [hts, List.cons_append]
          exact hd
        rw [hsc]
        simp only [List.singleton_append]
        rw [firstCapGo_step_match f t0 s.chead (s.ctail ++ segsChars more)
          (lower_ne_newline ht0) hu hr]
        rw [htake, hdrop, h1, pass1Q, segChars]
        simp

/-! ### The second regex pass on the output of the first -/

lemma acGo_main : ∀ fuel : Nat,
    (∀ segs : List Seg, (∀ s ∈ segs, SegWF s) → (pass1 segs).length ≤ fuel →
      allCapGo fuel (pass1 segs) = snakeOf segs) ∧
    (∀ (T : List Char) (more : List Seg), T ≠ [] → (∀ c ∈ T, isLowerAZ c = true) →
      (∀ s ∈ more, SegWF s) → (T ++ pass1Q more).length ≤ fuel →
      allCapGo fuel (T ++ pass1Q more) = T ++ snakeTail more) ∧
    (∀ (s : Seg) (more : List Seg), SegWF s → (∀ x ∈ more, SegWF x) →
      ('_' :: (segChars s ++ pass1 more)).length ≤ fuel →
      allCapGo fuel ('_' :: (segChars s ++ pass1 more)) =
        '_' :: (segChars s ++ snakeTail more)) ∧
    (∀ (s : Seg) (more : List Seg), SegWF s → (∀ x ∈ more, SegWF x) →
      (segChars s ++ pass1 more).length ≤ fuel →
      allCapGo fuel (segChars s ++ pass1 more) = segChars s ++ snakeTail more) ∧
    (∀ (T : List Char) (m : List Seg), T ≠ [] → (∀ c ∈ T, isLowerAZ c = true) →
      (∀ s ∈ m, SegWF s) → (T ++ pass1 m).length ≤ fuel →
      allCapGo fuel (T ++ pass1 m) = T ++ snakeTail m) := by
  intro fuel
  induction fuel using Nat.strong_induction_on with
  | _ fuel ih =>
  refine ⟨?_, ?_, ?_, ?_, ?_⟩
  · -- (A) from the start of the pass-1 output
    intro segs hwf hlen
    cases segs with
    | nil => simpa [pass1, snakeOf, List.intercalate] using allCapGo_nil fuel
    | cons s more =>
      obtain ⟨hu, htne, hlow⟩ := hwf s (List.mem_cons_self s more)
      obtain ⟨d, ts, hts⟩ : ∃ d ts, s.ctail = d :: ts := by
        cases hct : s.ctail with
        | nil => exact absurd hct htne
        | cons d ts => exact ⟨d, ts, rfl⟩
      cases fuel with
      | zero => rw [pass1_cons, segChars] at hlen; simp at hlen
      | succ f =>
        have hd : isLowerAZ d = true := hlow d (by rw [hts]; exact List.mem_cons_self d ts)
        have h2 := (ih f (Nat.lt_succ_self f)).2.1 s.ctail more htne hlow
          (fun x hx => hwf x (List.mem_cons_of_mem s hx))
          (by rw [pass1_cons, segChars] at hlen
              simpa using Nat.le_of_succ_le_succ hlen)
        rw [hts] at h2
        simp only [List.cons_append] at h2
        rw [pass1_cons, segChars, hts]
        simp only [List.cons_append]
        rw [allCapGo_step_nolower f s.chead d _ (upper_not_lower hu) (upper_not_digit hu)]
        rw [h2, snakeOf_cons, segChars, hts]
        simp
  · -- (B) inside the lowercase tail, continuation carries its underscore
    intro T more hTne hTlow hwf hlen
    cases T with
    | nil => exact absurd rfl hTne
    | cons t0 T2 =>
    cases fuel with
    | zero => simp at hlen
    | succ f =>
    cases T2 with
    | cons t1 T3 =>
      have ht1 : isLowerAZ t1 = true := hTlow t1 (by simp)
      have h2 := (ih f (Nat.lt_succ_self f)).2.1 (t1 :: T3) more (by simp)
        (fun x hx => hTlow x (List.mem_cons_of_mem t0 hx)) hwf
        (by simpa using Nat.le_of_succ_le_succ hlen)
      simp only [List.cons_append] at h2 ⊢
      rw [allCapGo_step_noupper f t0 t1 _ (lower_not_upper ht1)]
      rw [h2]
    | nil =>
      cases more with
      | nil =>
        simp only [pass1Q, List.append_nil, snakeTail]
        exact allCapGo_succ_single f t0
      | cons s m2 =>
        have h2 := (ih f (Nat.lt_succ_self f)).2.2.1 s m2
          (hwf s (List.mem_cons_self s m2))
          (fun x hx => hwf x (List.mem_cons_of_mem s hx))
          (by simp only [pass1Q, List.singleton_append, List.cons_append, List.nil_append,
                List.length_cons, List.length_append] at hlen ⊢
              omega)
        simp only [pass1Q, List.singleton_append, List.cons_append, List.nil_append] at h2 ⊢
        rw [allCapGo_step_noupper f t0 '_' _ usc_not_upper]
        rw [h2, snakeTail]
        simp
  · -- (B2) at the underscore separating two pass-1 groups
    intro s more hs hwf hlen
    cases fuel with
    | zero => simp at hlen
    | succ f =>
      obtain ⟨hu, htne, hlow⟩ := hs
      have hsc : segChars s ++ pass1 more = s.chead :: (s.ctail ++ pass1 more) := by
        rw [segChars]; rfl
      have h2 := (ih f (Nat.lt_succ_self f)).2.2.2.1 s more ⟨hu, htne, hlow⟩ hwf
        (by simpa using Nat.le_of_succ_le_succ hlen)
      rw [hsc] at h2 ⊢
      rw [allCapGo_step_nolower f '_' s.chead _ usc_not_lower usc_not_digit]
      rw [h2, segChars]
  · -- (B3) at the uppercase head of a pass-1 group
    intro s more hs hwf hlen
    obtain ⟨hu, htne, hlow⟩ := hs
    obtain ⟨d, ts, hts⟩ : ∃ d ts, s.ctail = d :: ts := by
      cases hct : s.ctail with
      | nil => exact absurd hct htne
      | cons d ts => exact ⟨d, ts, rfl⟩
    cases fuel with
    | zero => rw [segChars] at hlen; simp at hlen
    | succ f =>
      have hd : isLowerAZ d = true := hlow d (by rw [hts]; exact List.mem_cons_self d ts)
      have h2 := (ih f (Nat.lt_succ_self f)).2.2.2.2 s.ctail more htne hlow hwf
        (by rw [segChars] at hlen; simpa using Nat.le_of_succ_le_succ hlen)
      rw [segChars, hts] at *
      simp only [List.cons_append] at h2 ⊢
      rw [allCapGo_step_nolower f s.chead d _ (upper_not_lower hu) (upper_not_digit hu)]
      rw [h2]
  · -- (D) inside a lowercase run directly followed by a pass-1 group
    intro T m hTne hTlow hwf hlen
    cases T with
    | nil => exact absurd rfl hTne
    | cons t0 T2 =>
    cases fuel with
    | zero => simp at hlen
    | succ f =>
    cases T2 with
    | cons t1 T3 =>
      have ht1 : isLowerAZ t1 = true := hTlow t1 (by simp)
      have h2 := (ih f (Nat.lt_succ_self f)).2.2.2.2 (t1 :: T3) m (by simp)
        (fun x hx => hTlow x (List.mem_cons_of_mem t0 hx)) hwf
        (by simpa using Nat.le_of_succ_le_succ hlen)
      simp only [List.cons_append] at h2 ⊢
      rw [allCapGo_step_noupper f t0 t1 _ (lower_not_upper ht1)]
      rw [h2]
    | nil =>
      have ht0 : isLowerAZ t0 = true := hTlow t0 (by simp)
      cases m with
      | nil =>
        simp only [pass1, List.append_nil, snakeTail]
        exact allCapGo_succ_single f t0
      | cons s m2 =>
        obtain ⟨hu, htne, hlow⟩ := hwf s (List.mem_cons_self s m2)
        have h2 := (ih f (Nat.lt_succ_self f)).2.1 s.ctail m2 htne hlow
          (fun x hx => hwf x (List.mem_cons_of_mem s hx))
          (by rw [pass1_cons, segChars] at hlen
              simp only [List.singleton_append, List.cons_append, List.length_cons,
                List.length_append] at hlen ⊢
              omega)
        rw [pass1_cons, segChars]
        simp only [List.singleton_append, List.cons_append, List.nil_append]
        rw [allCapGo_step_match f t0 s.chead _ ht0 hu]
        rw [h2, snakeTail, segChars]
        simp

/-! ### Putting the two passes together -/

lemma snake_segments (segs : List Seg) (h : ∀ s ∈ segs, SegWF s) :
    replAllCap (replFirstCap (segsChars segs)) = snakeOf segs := by
  rw [replFirstCap, (fcGo_main _).1 segs h (le_refl _)]
  rw [replAllCap, (acGo_main _).1 segs h (le_refl _)]

/-- Tail of an underscore intercalation, as an explicit recursion. -/
def uscTail : List (List Char) → List Char
  | [] => []
  | y :: ys => '_' :: y ++ uscTail ys

lemma intercalate_usc (x : List Char) :
    ∀ xs : List (List Char), List.intercalate ['_'] (x :: xs) = x ++ uscTail xs := by
  intro xs
  induction xs generalizing x with
  | nil => rw [intercalate_usc_singleton]; simp [uscTail]
  | cons y ys ih =>
    rw [intercalate_usc_cons2, ih y, uscTail]
    simp

lemma snakeTail_eq_uscTail : ∀ more : List Seg,
    snakeTail more = uscTail (more.map segChars) := by
  intro more
  induction more with
  | nil => rfl
  | cons s m ih => rw [snakeTail, List.map_cons, uscTail, ih]

lemma uscTail_map_lower : ∀ xs : List (List Char),
    (uscTail xs).map asciiLower = uscTail (xs.map (List.map asciiLower)) := by
  intro xs
  induction xs with
  | nil => rfl
  | cons y ys ih =>
    rw [uscTail, List.map_cons, uscTail]
    simp only [List.cons_append, List.map_cons, List.map_append]
    rw [ih]
    have h : asciiLower '_' = '_' := by decide
    rw [h]

lemma intercalate_lower_eq (segs : List Seg) :
    List.intercalate ['_'] (segs.map (fun s => (segChars s).map asciiLower)) =
      (snakeOf segs).map asciiLower := by
  cases segs with
  | nil => simp [snakeOf, List.intercalate]
  | cons s more =>
    rw [List.map_cons, intercalate_usc, snakeOf_cons]
    rw [List.map_append, snakeTail_eq_uscTail, uscTail_map_lower]
    rw [show more.map (fun s => (segChars s).map asciiLower) =
      (more.map segChars).map (List.map asciiLower) from by rw [List.map_map]; rfl]

/-- Claim C1: on every identifier composed of capitalized word segments the
name normalizer returns the segments lowercased and joined by underscores
(a boundary at every segment junction); in particular
`toSnakeCase "FooColumn" = "foo_column"` and `toSnakeCase "Bar" = "bar"`. -/
theorem toSnakeCase_capitalized_segments :
    (∀ segs : List Seg, (∀ s ∈ segs, SegWF s) →
      toSnakeCase ⟨segsChars segs⟩ =
        ⟨List.intercalate ['_'] (segs.map (fun s => (segChars s).map asciiLower))⟩) ∧
    toSnakeCase "FooColumn" = "foo_column" ∧ toSnakeCase "Bar" = "bar" := by
  refine ⟨?_, by decide, by decide⟩
  intro segs h
  show (⟨(replAllCap (replFirstCap (segsChars segs))).map asciiLower⟩ : String) = _
  rw [snake_segments segs h, intercalate_lower_eq]

/-- Witness for C1 at the identifier `FooColumn` split as `Foo ++ Column`. -/
theorem toSnakeCase_capitalized_segments_witness :
    (∀ s ∈ [Seg.mk 'F' ['o', 'o'], Seg.mk 'C' ['o', 'l', 'u', 'm', 'n']], SegWF s) ∧
    toSnakeCase ⟨segsChars [Seg.mk 'F' ['o', 'o'], Seg.mk 'C' ['o', 'l', 'u', 'm', 'n']]⟩ =
      ⟨List.intercalate ['_']
        ([Seg.mk 'F' ['o', 'o'], Seg.mk 'C' ['o', 'l', 'u', 'm', 'n']].map
          (fun s => (segChars s).map asciiLower))⟩ :=
  ⟨by decide, toSnakeCase_capitalized_segments.1 _ (by decide)⟩

/-! ## Idempotence on already-normalized strings (C9) -/

/-- A character of an already-normalized column name: lowercase, digit or
underscore. -/
def isNormalizedChar (c : Char) : Bool :=
  isLowerAZ c || isDigit09 c || c == '_'

lemma normalized_not_upper {c : Char} (h : isNormalizedChar c = true) :
    isUpperAZ c = false := by
  rw [Bool.eq_false_iff]
  intro ht
  simp only [isNormalizedChar, isLowerAZ, isDigit09, isUpperAZ, Bool.or_eq_true,
    Bool.and_eq_true, decide_eq_true_eq, beq_iff_eq] at h ht
  rcases h with (h | h) | h
  · omega
  · omega
  · subst h; revert ht; decide

lemma fcGo_id (fuel : Nat) :
    ∀ cs : List Char, (∀ c ∈ cs, isNormalizedChar c = true) →
      firstCapGo fuel cs = cs := by
  induction fuel with
  | zero => intro cs _; rfl
  | succ f ih =>
    intro cs h
    cases cs with
    | nil => rfl
    | cons c cs2 =>
      cases cs2 with
      | nil => exact firstCapGo_succ_single f c
      | cons d rest =>
        have hdu : isUpperAZ d = false := normalized_not_upper (h d (by simp))
        rw [firstCapGo_step_nomatch f c d rest hdu]
        rw [ih (d :: rest) (fun x hx => h x (List.mem_cons_of_mem c hx))]

lemma acGo_id (fuel : Nat) :
    ∀ cs : List Char, (∀ c ∈ cs, isNormalizedChar c = true) →
      allCapGo fuel cs = cs := by
  induction fuel with
  | zero => intro cs _; rfl
  | succ f ih =>
    intro cs h
    cases cs with
    | nil => rfl
    | cons c cs2 =>
      cases cs2 with
      | nil => exact allCapGo_succ_single f c
      | cons d rest =>
        have hdu : isUpperAZ d = false := normalized_not_upper (h d (by simp))
        rw [allCapGo_step_noupper f c d rest hdu]
        rw [ih (d :: rest) (fun x hx => h x (List.mem_cons_of_mem c hx))]

lemma asciiLower_fix {c : Char} (h : isNormalizedChar c = true) : asciiLower c = c := by
  unfold asciiLower
  rw [normalized_not_upper h]
  simp

lemma map_asciiLower_fix :
    ∀ l : List Char, (∀ c ∈ l, isNormalizedChar c = true) → l.map asciiLower = l := by
  intro l h
  induction l with
  | nil => rfl
  | cons c cs ih =>
    rw [List.map_cons, asciiLower_fix (h c (by simp)),
      ih (fun x hx => h x (List.mem_cons_of_mem c hx))]

/-- Claim C9: the name normalizer passes already-normalized strings (lowercase
letters, digits and underscores only) through unchanged, and hence is
idempotent on them. -/
theorem toSnakeCase_idempotent_normalized :
    ∀ s : String, (∀ c ∈ s.data, isNormalizedChar c = true) →
      toSnakeCase s = s ∧ toSnakeCase (toSnakeCase s) = toSnakeCase s := by
  intro s h
  have h1 : toSnakeCase s = s := by
    show (⟨(replAllCap (replFirstCap s.data)).map asciiLower⟩ : String) = s
    rw [replFirstCap, fcGo_id _ _ h, replAllCap, acGo_id _ _ h, map_asciiLower_fix _ h]
  exact ⟨h1, by simp [h1]⟩

/-- Witness for C9 at the already-normalized string `foo_123`. -/
theorem toSnakeCase_idempotent_normalized_witness :
    (∀ c ∈ ("foo_123" : String).data, isNormalizedChar c = true) ∧
    (toSnakeCase "foo_123" = "foo_123" ∧
      toSnakeCase (toSnakeCase "foo_123") = toSnakeCase "foo_123") :=
  ⟨by decide, toSnakeCase_idempotent_normalized "foo_123" (by decide)⟩

/-! ## Go error values

A Go `error` is `Option GoErr` (`none` = nil).  `GoErr.withStack` models
`errors.WithStack`, `GoErr.wrapMsg` models `errors.Wrap` (message prepended
with `": "`), sentinel errors are dedicated constructors. -/

/-- Go error values appearing in this library. -/
inductive GoErr where
  /-- The `pgx.ErrNoRows` sentinel. -/
  | pgxErrNoRows : GoErr
  /-- The dbscan sentinel reported when a row source has no rows at all. -/
  | dbscanErrNotFound : GoErr
  /-- The dbscan sentinel reported when a second row exists in single-row mode. -/
  | dbscanErrTooManyRows : GoErr
  /-- `errors.WithStack(e)`: stack annotation, wraps `e`. -/
  | withStack (e : GoErr) : GoErr
  /-- `errors.Wrap(e, msg)`: message annotation, wraps `e`. -/
  | wrapMsg (msg : String) (e : GoErr) : GoErr
  /-- Any other leaf error (e.g. `errors.New(msg)`). -/
  | other (msg : String) : GoErr
deriving DecidableEq

/-- The wrapping chain of `errors.Is`: an error `Is` a target when the target
is reachable by unwrapping stack/message annotations. -/
inductive Wraps : GoErr → GoErr → Prop where
  | refl (e : GoErr) : Wraps e e
  | viaStack (e t : GoErr) : Wraps e t → Wraps (.withStack e) t
  | viaWrap (m : String) (e t : GoErr) : Wraps e t → Wraps (.wrapMsg m e) t

/-- `errors.Is(err, target)` on a non-nil error: unwrap annotations until the
target is found. -/
def errIsAux : GoErr → GoErr → Bool
  | e, t =>
    if e = t then true
    else match e with
      | .withStack e2 => errIsAux e2 t
      | .wrapMsg _ e2 => errIsAux e2 t
      | _ => false

/-- `errors.Is(err, target)`; a nil error never `Is` a sentinel. -/
def errIs : Option GoErr → GoErr → Bool
  | none, _ => false
  | some e, t => errIsAux e t

lemma errIsAux_iff_wraps : ∀ e t : GoErr, errIsAux e t = true ↔ Wraps e t := by
  intro e t
  induction e with
  | withStack e2 ih =>
    rw [errIsAux]
    by_cases h : GoErr.withStack e2 = t
    · subst h; simp [Wraps.refl]
    · simp only [h, if_false]
      constructor
      · intro h2
        exact Wraps.viaStack _ _ (ih.mp h2)
      · intro h2
        cases h2 with
        | refl => exact absurd rfl h
        | viaStack _ _ h3 => exact ih.mpr h3
  | wrapMsg m e2 ih =>
    rw [errIsAux]
    by_cases h : GoErr.wrapMsg m e2 = t
    · subst h; simp [Wraps.refl]
    · simp only [h, if_false]
      constructor
      · intro h2
        exact Wraps.viaWrap _ _ _ (ih.mp h2)
      · intro h2
        cases h2 with
        | refl => exact absurd rfl h
        | viaWrap _ _ _ h3 => exact ih.mpr h3
  | pgxErrNoRows =>
    rw [errIsAux]
    by_cases h : GoErr.pgxErrNoRows = t
    · subst h
      rw [if_pos rfl]
      exact iff_of_true rfl (Wraps.refl _)
    · rw [if_neg h]
      show false = true ↔ Wraps (GoErr.pgxErrNoRows) t
      constructor
      · intro h2; exact absurd h2 (by simp)
      · intro h2; cases h2; exact absurd rfl h
    · intro e2 h3; exact GoErr.noConfusion h3
    · intro msg e2 h3; exact GoErr.noConfusion h3
  | dbscanErrNotFound =>
    rw [errIsAux]
    by_cases h : GoErr.dbscanErrNotFound = t
    · subst h
      rw [if_pos rfl]
      exact iff_of_true rfl (Wraps.refl _)
    · rw [if_neg h]
      show false = true ↔ Wraps (GoErr.dbscanErrNotFound) t
      constructor
      · intro h2; exact absurd h2 (by simp)
      · intro h2; cases h2; exact absurd rfl h
    · intro e2 h3; exact GoErr.noConfusion h3
    · intro msg e2 h3; exact GoErr.noConfusion h3
  | dbscanErrTooManyRows =>
    rw [errIsAux]
    by_cases h : GoErr.dbscanErrTooManyRows = t
    · subst h
      rw [if_pos rfl]
      exact iff_of_true rfl (Wraps.refl _)
    · rw [if_neg h]
      show false = true ↔ Wraps (GoErr.dbscanErrTooManyRows) t
      constructor
      · intro h2; exact absurd h2 (by simp)
      · intro h2; cases h2; exact absurd rfl h
    · intro e2 h3; exact GoErr.noConfusion h3
    · intro msg e2 h3; exact GoErr.noConfusion h3
  | other m =>
    rw [errIsAux]
    by_cases h : GoErr.other m = t
    · subst h
      rw [if_pos rfl]
      exact iff_of_true rfl (Wraps.refl _)
    · rw [if_neg h]
      show false = true ↔ Wraps (GoErr.other m) t
      constructor
      · intro h2; exact absurd h2 (by simp)
      · intro h2; cases h2; exact absurd rfl h
    · intro e2 h3; exact GoErr.noConfusion h3
    · intro msg e2 h3; exact GoErr.noConfusion h3

/-! ## pgxscan.ScanOne and pgxscan.NotFound (C6) -/

/-- `pgxscan.NotFound` from pgxscan.go: `errors.Is(err, pgx.ErrNoRows)`. -/
def pgxNotFound (err : Option GoErr) : Bool :=
  errIs err .pgxErrNoRows

/-- Modelled from the spec: `dbscan.NotFound` holds exactly when the error
wraps the dbscan sentinel produced when "the row source reports no rows at
all" (the dbscan package is not part of this repository snapshot). -/
def dbscanNotFound (err : Option GoErr) : Bool :=
  errIs err .dbscanErrNotFound

/-- `pgxscan.ScanOne` from pgxscan.go, as a function of the result of the
wrapped `dbscan.ScanOne` call: if that result satisfies `dbscan.NotFound`,
return `pgx.ErrNoRows` (with a stack annotation); otherwise return the
result unchanged up to `errors.WithStack` (which leaves nil as nil). -/
def pgxScanOne (dbscanResult : Option GoErr) : Option GoErr :=
  if dbscanNotFound dbscanResult then some (.withStack .pgxErrNoRows)
  else dbscanResult.map .withStack

/-- Claim C6: `pgxscan.ScanOne` yields `pgx.ErrNoRows` exactly when the
underlying `dbscan.ScanOne` result satisfies `dbscan.NotFound`, propagates
every other result unchanged up to stack annotation, and `pgxscan.NotFound`
holds exactly on errors wrapping `pgx.ErrNoRows`. -/
theorem scanOne_notFound (dbscanResult : Option GoErr) :
    (dbscanNotFound dbscanResult = true →
      pgxScanOne dbscanResult = some (.withStack .pgxErrNoRows)) ∧
    (dbscanNotFound dbscanResult = false →
      pgxScanOne dbscanResult = dbscanResult.map .withStack) ∧
    (∀ e : GoErr, pgxNotFound (some e) = true ↔ Wraps e .pgxErrNoRows) := by
  refine ⟨?_, ?_, ?_⟩
  · intro h
    rw [pgxScanOne, h]
    simp
  · intro h
    rw [pgxScanOne, h]
    simp
  · intro e
    exact errIsAux_iff_wraps e .pgxErrNoRows

/-- Witness for C6 at a wrapped dbscan not-found result and at a plain
row-source error. -/
theorem scanOne_notFound_witness :
    (dbscanNotFound (some (.wrapMsg "scany" .dbscanErrNotFound)) = true ∧
      pgxScanOne (some (.wrapMsg "scany" .dbscanErrNotFound)) =
        some (.withStack .pgxErrNoRows)) ∧
    (dbscanNotFound (some (.other "io failure")) = false ∧
      pgxScanOne (some (.other "io failure")) =
        some (.withStack (.other "io failure"))) :=
  ⟨⟨by decide, (scanOne_notFound _).1 (by decide)⟩,
   ⟨by decide, (scanOne_notFound _).2.1 (by decide)⟩⟩

/-! ## RowsAdapter.Columns (C7) -/

/-- One pgx field description; only the name (a byte string, modelled as its
characters) is relevant to the adapter. -/
structure FieldDescription where
  name : List Char

/-- The part of `pgx.Rows` the adapter reads: its field descriptions. -/
structure PgxRows where
  fieldDescriptions : List FieldDescription

/-- `pgxscan.RowsAdapter` wraps a `pgx.Rows`. -/
structure RowsAdapter where
  rows : PgxRows

/-- The loop body of `RowsAdapter.Columns`: `columns[i] = string(fd.Name)`
for each field description in order. -/
def columnsLoop : List FieldDescription → List String
  | [] => []
  | fd :: rest => String.mk fd.name :: columnsLoop rest

/-- `RowsAdapter.Columns` from pgxscan.go: the field-description names in
order, and always a nil error. -/
def RowsAdapter.Columns (ra : RowsAdapter) : List String × Option GoErr :=
  (columnsLoop ra.rows.fieldDescriptions, none)

lemma columnsLoop_eq_map : ∀ fds : List FieldDescription,
    columnsLoop fds = fds.map (fun fd => String.mk fd.name) := by
  intro fds
  induction fds with
  | nil => rfl
  | cons fd rest ih => rw [columnsLoop, List.map_cons, ih]

/-- Claim C7: for every wrapped rows value, `RowsAdapter.Columns` returns the
field-description names in field-description order and a nil error (the
adapter has no failure path). -/
theorem rowsAdapter_columns (ra : RowsAdapter) :
    RowsAdapter.Columns ra =
      (ra.rows.fieldDescriptions.map (fun fd => String.mk fd.name), none) := by
  rw [RowsAdapter.Columns, columnsLoop_eq_map]

/-! ## The row scanner state machine (C2)

Modelled from the spec: the dbscan `RowScanner` holds a `started` flag and a
`start` hook; `doScan` invokes the hook and transitions to `Started` on the
first scan, and on any state performs the per-row materialization, whose
error does not touch the state. -/

/-- One `DoScan`/`ScanRow` call, described by what the injected start hook
and the per-row materialization would return on it. -/
structure ScanStep where
  hookResult : Option GoErr
  rowResult : Option GoErr
deriving DecidableEq

/-- The observable outcome of one `DoScan` call. -/
structure TraceEntry where
  startedAfter : Bool
  hookInvoked : Bool
  scanResult : Option GoErr
deriving DecidableEq

/-- Modelled from the spec: one `doScan` call.  On `NotStarted` it invokes
the start hook and transitions to `Started`; the call fails with whatever
the hook or the materializer produced, and the state is `Started` afterwards
in every case. -/
def doScanModel (started : Bool) (st : ScanStep) : TraceEntry :=
  if started then ⟨true, false, st.rowResult⟩
  else ⟨true, true,
    match st.hookResult with
    | some e => some e
    | none => st.rowResult⟩

/-- A sequence of `doScan` calls against one scanner, threading the state. -/
def runScans : Bool → List ScanStep → List TraceEntry
  | _, [] => []
  | b, st :: rest =>
    let e := doScanModel b st
    e :: runScans e.startedAfter rest

lemma runScans_started : ∀ (steps : List ScanStep) (i : Nat) (e : TraceEntry),
    (runScans true steps)[i]? = some e →
    e.hookInvoked = false ∧ e.startedAfter = true := by
  intro steps
  induction steps with
  | nil => intro i e h; simp [runScans] at h
  | cons st rest ih =>
    intro i e h
    rw [runScans] at h
    cases i with
    | zero =>
      rw [List.getElem?_cons_zero] at h
      cases h
      exact ⟨rfl, rfl⟩
    | succ j =>
      rw [List.getElem?_cons_succ] at h
      exact ih j e (by simpa [doScanModel] using h)

/-- Claim C2: starting from `NotStarted`, the start hook is invoked on the
first `doScan` call only, and after every call — including calls whose
per-row scan returns an error — the state is `Started`; it never reverts. -/
theorem rowScanner_started_once (steps : List ScanStep) (i : Nat) (e : TraceEntry)
    (h : (runScans false steps)[i]? = some e) :
    e.hookInvoked = decide (i = 0) ∧ e.startedAfter = true := by
  cases steps with
  | nil => simp [runScans] at h
  | cons st rest =>
    rw [runScans] at h
    cases i with
    | zero =>
      rw [List.getElem?_cons_zero] at h
      cases h
      simp [doScanModel]
    | succ j =>
      rw [List.getElem?_cons_succ] at h
      have h2 := runScans_started rest j e (by simpa [doScanModel] using h)
      simp [h2.1, h2.2]

/-- Witness for C2: a two-call trace whose second row fails; the hook runs
only on the first call and the state stays `Started` through the failure. -/
theorem rowScanner_started_once_witness :
    ((runScans false [⟨none, none⟩, ⟨none, some (.other "bad row")⟩])[1]? =
      some ⟨true, false, some (.other "bad row")⟩) ∧
    ((true : Bool) = decide ((1 : Nat) = 0) → False) ∧
    (⟨true, false, some (.other "bad row")⟩ : TraceEntry).hookInvoked = decide ((1 : Nat) = 0) ∧
    (⟨true, false, some (.other "bad row")⟩ : TraceEntry).startedAfter = true :=
  ⟨by decide, by decide,
    rowScanner_started_once [⟨none, none⟩, ⟨none, some (.other "bad row")⟩] 1 _ (by decide)⟩

/-! ## The Insert statement builder (C8, C10)

`Insert` from pgxscan.go iterates the struct fields in declaration order,
chooses the column name from the `pgx` tag (or snake-cases the field name),
renders each value according to its reflect kind, and concatenates the SQL
text.  A struct value is modelled as its ordered field list; the float
rendering `fmt.Sprintf("%f", ...)` is a Go library detail and is taken as a
parameter.  A returned error means the function exits before `db.Query` is
ever called. -/

/-- A single-quote character as a string (values of string kind are wrapped
in these). -/
def squote : String := "\x27"

/-- A Go struct field value together with its reflect kind. -/
inductive FieldVal where
  | vString (s : String)
  | vBool (b : Bool)
  | vInt (n : Int)
  | vInt8 (n : Int)
  | vInt16 (n : Int)
  | vInt32 (n : Int)
  | vInt64 (n : Int)
  | vUint (n : Nat)
  | vFloat32 (x : Float)
  | vFloat64 (x : Float)

/-- `reflect.Kind.String()` for the kinds above. -/
def kindStr : FieldVal → String
  | .vString _ => "string"
  | .vBool _ => "bool"
  | .vInt _ => "int"
  | .vInt8 _ => "int8"
  | .vInt16 _ => "int16"
  | .vInt32 _ => "int32"
  | .vInt64 _ => "int64"
  | .vUint _ => "uint"
  | .vFloat32 _ => "float32"
  | .vFloat64 _ => "float64"

/-- The error built by the default branch of the kind switch:
`errors.Wrap(errors.New("type: "+kind+" unsupported"), "scany: this type not yet supported")`. -/
def unsupportedErr (v : FieldVal) : GoErr :=
  .wrapMsg "scany: this type not yet supported"
    (.other ("type: " ++ kindStr v ++ " unsupported"))

/-- The kind switch of `Insert`: strings are wrapped in single quotes, the
handled integer kinds are rendered via `strconv.FormatInt(v, 10)`, the float
kinds via `fmt.Sprintf("%f", v)` (the parameter `fmtF`), everything else hits
the default branch and errors. -/
def renderVal (fmtF : Float → String) : FieldVal → Except GoErr String
  | .vString s => .ok (squote ++ s ++ squote)
  | .vInt n => .ok (toString n)
  | .vInt8 n => .ok (toString n)
  | .vInt32 n => .ok (toString n)
  | .vInt64 n => .ok (toString n)
  | .vFloat64 x => .ok (fmtF x)
  | .vFloat32 x => .ok (fmtF x)
  | v => .error (unsupportedErr v)

/-- One field of the struct passed to `Insert`: its name, its optional `pgx`
tag, and its value. -/
structure InsField where
  fname : String
  pgxTag : Option String
  fval : FieldVal

/-- The column name of a field: the `pgx` tag when present, otherwise
`toSnakeCase` of the field name. -/
def insColName (f : InsField) : String :=
  match f.pgxTag with
  | some t => t
  | none => toSnakeCase f.fname

/-- The field loop of `Insert`: collects column names and rendered values in
declaration order, returning the first rendering error. -/
def insertLoop (fmtF : Float → String) : List InsField → Except GoErr (List String × List String)
  | [] => .ok ([], [])
  | f :: rest =>
    match renderVal fmtF f.fval with
    | .error e => .error e
    | .ok v =>
      match insertLoop fmtF rest with
      | .error e => .error e
      | .ok (cols, vals) => .ok (insColName f :: cols, v :: vals)

/-- `Insert` from pgxscan.go, modelled as returning the SQL text it would
execute (`.error` means it returns before calling `db.Query`). -/
def Insert (fmtF : Float → String) (data : List InsField)
    (table additionalQuery : String) : Except GoErr String :=
  match insertLoop fmtF data with
  | .error e => .error e
  | .ok (cols, vals) =>
    .ok ("INSERT INTO " ++ table ++ " (" ++ String.intercalate ", " cols ++
      ") VALUES (" ++ String.intercalate ", " vals ++ ") " ++ additionalQuery)

/-- The reflect kinds the switch of `Insert` handles. -/
def supportedKind : FieldVal → Bool
  | .vString _ => true
  | .vInt _ => true
  | .vInt8 _ => true
  | .vInt32 _ => true
  | .vInt64 _ => true
  | .vFloat32 _ => true
  | .vFloat64 _ => true
  | _ => false

/-- The rendered value of a supported field (with a dummy value on the
unsupported kinds, which never reach it). -/
def renderedVal (fmtF : Float → String) (f : InsField) : String :=
  match renderVal fmtF f.fval with
  | .ok v => v
  | .error _ => ""

lemma renderVal_ok (fmtF : Float → String) (f : InsField)
    (h : supportedKind f.fval = true) :
    renderVal fmtF f.fval = .ok (renderedVal fmtF f) := by
  cases hv : f.fval <;>
    first
      | (rw [renderedVal, hv]; rfl)
      | (exact Bool.noConfusion (hv ▸ h))

lemma renderVal_err (fmtF : Float → String) (v : FieldVal)
    (h : supportedKind v = false) :
    renderVal fmtF v = .error (unsupportedErr v) := by
  cases v <;>
    first
      | rfl
      | (exact Bool.noConfusion h)

lemma insertLoop_ok (fmtF : Float → String) :
    ∀ data : List InsField, (∀ f ∈ data, supportedKind f.fval = true) →
      insertLoop fmtF data = .ok (data.map insColName, data.map (renderedVal fmtF)) := by
  intro data h
  induction data with
  | nil => rfl
  | cons f rest ih =>
    rw [insertLoop, renderVal_ok fmtF f (h f (by simp))]
    rw [ih (fun x hx => h x (List.mem_cons_of_mem f hx))]
    rfl

lemma insertLoop_err (fmtF : Float → String) :
    ∀ data : List InsField, (∃ f ∈ data, supportedKind f.fval = false) →
      ∃ e : GoErr, insertLoop fmtF data = .error e := by
  intro data h
  induction data with
  | nil => simp at h
  | cons f rest ih =>
    obtain ⟨g, hg, hgf⟩ := h
    rw [List.mem_cons] at hg
    cases hg with
    | inl hgeq =>
      subst hgeq
      exact ⟨unsupportedErr g.fval, by rw [insertLoop, renderVal_err fmtF g.fval hgf]⟩
    | inr hgm =>
      obtain ⟨e, he⟩ := ih ⟨g, hgm, hgf⟩
      cases hr : renderVal fmtF f.fval with
      | error e2 => exact ⟨e2, by rw [insertLoop, hr]⟩
      | ok v => exact ⟨e, by rw [insertLoop, hr, he]⟩

/-- Claim C8: on a struct whose fields all have supported kinds, `Insert`
builds its SQL by plain concatenation
`"INSERT INTO " ++ table ++ " (" ++ columns ++ ") VALUES (" ++ values ++ ") " ++ additionalQuery`,
with each column name taken from the `pgx` tag when present and
`toSnakeCase` of the field name otherwise, and with string values wrapped in
single quotes. -/
theorem insert_sql_concatenation (fmtF : Float → String) (data : List InsField)
    (table additionalQuery : String)
    (h : ∀ f ∈ data, supportedKind f.fval = true) :
    Insert fmtF data table additionalQuery =
      .ok ("INSERT INTO " ++ table ++ " (" ++
        String.intercalate ", " (data.map insColName) ++ ") VALUES (" ++
        String.intercalate ", " (data.map (renderedVal fmtF)) ++ ") " ++
        additionalQuery) ∧
    (∀ f : InsField, insColName f =
      match f.pgxTag with
      | some t => t
      | none => toSnakeCase f.fname) ∧
    (∀ (nm : String) (tg : Option String) (s : String),
      renderedVal fmtF ⟨nm, tg, .vString s⟩ = squote ++ s ++ squote) := by
  refine ⟨?_, fun f => rfl, fun nm tg s => rfl⟩
  rw [Insert, insertLoop_ok fmtF data h]

/-- Witness for C8: the README-style example struct
`{ID string pgx:"id"; UserAge int}`. -/
theorem insert_sql_concatenation_witness :
    (∀ f ∈ [(⟨"ID", some "id", .vString "user_1"⟩ : InsField),
            ⟨"UserAge", none, .vInt 40⟩], supportedKind f.fval = true) ∧
    Insert (fun _ => "") [⟨"ID", some "id", .vString "user_1"⟩,
        ⟨"UserAge", none, .vInt 40⟩] "my_user_table" "" =
      .ok ("INSERT INTO my_user_table (id, user_age) VALUES " ++
        "(\x27user_1\x27, 40) ") := by
  refine ⟨by decide, ?_⟩
  rw [(insert_sql_concatenation (fun _ => "")
    [⟨"ID", some "id", .vString "user_1"⟩, ⟨"UserAge", none, .vInt 40⟩]
    "my_user_table" "" (by decide)).1]
  rfl

/-- Claim C10: `Insert` returns an error — and hence never reaches
`db.Query` — whenever some field kind is outside
{String, Int, Int8, Int32, Int64, Float32, Float64}; in particular int16,
uint and bool fields are rejected with the "this type not yet supported"
error. -/
theorem insert_unsupported_kind_error (fmtF : Float → String)
    (data : List InsField) (table additionalQuery : String)
    (h : ∃ f ∈ data, supportedKind f.fval = false) :
    (∃ e : GoErr, Insert fmtF data table additionalQuery = .error e) ∧
    (∀ (nm : String) (tg : Option String) (n : Int) (tb aq : String),
      Insert fmtF [⟨nm, tg, .vInt16 n⟩] tb aq = .error (unsupportedErr (.vInt16 n))) ∧
    (∀ (nm : String) (tg : Option String) (n : Nat) (tb aq : String),
      Insert fmtF [⟨nm, tg, .vUint n⟩] tb aq = .error (unsupportedErr (.vUint n))) ∧
    (∀ (nm : String) (tg : Option String) (b : Bool) (tb aq : String),
      Insert fmtF [⟨nm, tg, .vBool b⟩] tb aq = .error (unsupportedErr (.vBool b))) := by
  refine ⟨?_, fun nm tg n tb aq => rfl, fun nm tg n tb aq => rfl,
    fun nm tg b tb aq => rfl⟩
  obtain ⟨e, he⟩ := insertLoop_err fmtF data h
  exact ⟨e, by rw [Insert, he]⟩

/-- Witness for C10: a struct with a single bool field is rejected. -/
theorem insert_unsupported_kind_error_witness :
    (∃ f ∈ [(⟨"Flag", none, .vBool true⟩ : InsField)],
      supportedKind f.fval = false) ∧
    (∃ e : GoErr, Insert (fun _ => "") [(⟨"Flag", none, .vBool true⟩ : InsField)]
      "t" "" = .error e) :=
  ⟨⟨⟨"Flag", none, .vBool true⟩, by simp, rfl⟩,
    (insert_unsupported_kind_error (fun _ => "") _ "t" ""
      ⟨⟨"Flag", none, .vBool true⟩, by simp, rfl⟩).1⟩

/-! ## Struct shapes and the field index (C3, C4, C5)

Modelled from the spec (the dbscan core is absent from this repository
snapshot).  A struct shape is encoded as a cons-list of its fields inside one
inductive so that every traversal below is plain structural recursion and
therefore kernel-evaluable. -/

/-- Modelled from the spec (section 4.3): a destination type shape.
`stCons fname dbTag exported embedded byPtr ftyp rest` is a struct type whose
first declared field has the given name, optional `db` tag, and attributes,
with field type `ftyp` and the remaining fields in `rest` (`stNil` ends the
field list).  `scalar` is any leaf type the row source populates directly. -/
inductive GoType where
  | scalar : GoType
  | stNil : GoType
  | stCons (fname : String) (dbTag : Option String) (exported embedded byPtr : Bool)
      (ftyp : GoType) (rest : GoType) : GoType
deriving DecidableEq

/-- A column key under a name prefix: `pfx ++ "." ++ nm` when `pfx` is
nonempty, else `nm`. -/
def colKey (pfx nm : String) : String :=
  if pfx = "" then nm else pfx ++ "." ++ nm

/-- Association-list lookup of a column in a field index. -/
def lookupCol : List (String × List Nat) → String → Option (List Nat)
  | [], _ => none
  | (c, p) :: rest, c2 => if c = c2 then some p else lookupCol rest c2

/-- Shape-level index-build errors. -/
inductive BuildErr where
  /-- Two members claim one column: both access paths are reported. -/
  | duplicateColumnMapping (column : String) (path1 path2 : List Nat) : BuildErr
deriving DecidableEq

/-- Sequential insertion of resolved columns into the index: the first column
that was already claimed aborts with `DuplicateColumnMapping`, carrying the
earlier claimant's access path and the new one. -/
def insertAll (acc : List (String × List Nat)) :
    List (String × List Nat) → Except BuildErr (List (String × List Nat))
  | [] => .ok acc
  | (c, p) :: rest =>
    match lookupCol acc c with
    | some p1 => .error (.duplicateColumnMapping c p1 p)
    | none => insertAll (acc ++ [(c, p)]) rest

/-- Modelled from the spec (section 4.3): the depth-first resolution of a
struct shape, as the list of (column name, access path) pairs in declaration
order, before the duplicate check.  `pfx` is the current name prefix, `path`
the access path so far, `i` the declaration index of the next field.
Unexported members are skipped, a `-` tag removes the subtree, an embedded
struct member without a tag is flattened into the same prefix, an embedded
struct member with a tag opens the nested prefix `pfx + tag`, and every
other member is a leaf whose column name is its tag, or the snake-cased
member name, under the prefix. -/
def resolvedColumns (pfx : String) (path : List Nat) (i : Nat) :
    GoType → List (String × List Nat)
  | .scalar => []
  | .stNil => []
  | .stCons nm tg exported embedded _ ftyp rest =>
    (match exported, tg with
     | false, _ => []
     | true, some t =>
       if t = "-" then []
       else if embedded then
         match ftyp with
         | .scalar => [(colKey pfx t, path ++ [i])]
         | _ => resolvedColumns (colKey pfx t) (path ++ [i]) 0 ftyp
       else [(colKey pfx t, path ++ [i])]
     | true, none =>
       if embedded then
         match ftyp with
         | .scalar => [(colKey pfx (toSnakeCase nm), path ++ [i])]
         | _ => resolvedColumns pfx (path ++ [i]) 0 ftyp
       else [(colKey pfx (toSnakeCase nm), path ++ [i])])
    ++ resolvedColumns pfx path (i + 1) rest

/-- Modelled from the spec (section 4.3): the field index of a shape — every
column resolved depth-first in declaration order and inserted in that order,
the first duplicate aborting with the fatal, shape-level
`DuplicateColumnMapping`.  The builder sees only the shape, never a row. -/
def buildIndex (t : GoType) : Except BuildErr (List (String × List Nat)) :=
  insertAll [] (resolvedColumns "" [] 0 t)

/-! ### Lookup and insertion facts -/

lemma lookupCol_some_split :
    ∀ (l : List (String × List Nat)) (c : String) (p : List Nat),
      lookupCol l c = some p → ∃ l1 l2, l = l1 ++ (c, p) :: l2 := by
  intro l
  induction l with
  | nil => intro c p h; simp [lookupCol] at h
  | cons hd rest ih =>
    obtain ⟨c0, p0⟩ := hd
    intro c p h
    rw [lookupCol] at h
    by_cases he : c0 = c
    · subst he
      rw [if_pos rfl] at h
      cases h
      exact ⟨[], rest, rfl⟩
    · rw [if_neg he] at h
      obtain ⟨l1, l2, hsp⟩ := ih c p h
      exact ⟨(c0, p0) :: l1, l2, by rw [hsp]; rfl⟩

lemma lookupCol_none_not_mem :
    ∀ (l : List (String × List Nat)) (c : String),
      lookupCol l c = none → c ∉ l.map Prod.fst := by
  intro l
  induction l with
  | nil => intro c _; simp
  | cons hd rest ih =>
    obtain ⟨c0, p0⟩ := hd
    intro c h
    rw [lookupCol] at h
    by_cases he : c0 = c
    · rw [if_pos he] at h; cases h
    · rw [if_neg he] at h
      simp only [List.map_cons, List.mem_cons]
      rintro (hc | hc)
      · exact he hc.symm
      · exact ih c h hc

lemma insertAll_ok_eq :
    ∀ (l acc r : List (String × List Nat)),
      insertAll acc l = .ok r → r = acc ++ l := by
  intro l
  induction l with
  | nil => intro acc r h; cases h; simp
  | cons hd rest ih =>
    obtain ⟨c, p⟩ := hd
    intro acc r h
    rw [insertAll] at h
    cases hl : lookupCol acc c with
    | some p1 => rw [hl] at h; cases h
    | none =>
      rw [hl] at h
      rw [ih (acc ++ [(c, p)]) r h]
      simp

lemma insertAll_err :
    ∀ (l acc : List (String × List Nat)),
      (acc.map Prod.fst).Nodup → ¬ (((acc ++ l).map Prod.fst).Nodup) →
      ∃ (c : String) (p1 p2 : List Nat) (l1 l2 l3 : List (String × List Nat)),
        acc ++ l = l1 ++ (c, p1) :: l2 ++ (c, p2) :: l3 ∧
        insertAll acc l = .error (.duplicateColumnMapping c p1 p2) := by
  intro l
  induction l with
  | nil =>
    intro acc hnd hdup
    rw [List.append_nil] at hdup
    exact absurd hnd hdup
  | cons hd rest ih =>
    obtain ⟨c, p⟩ := hd
    intro acc hnd hdup
    cases hl : lookupCol acc c with
    | some p1 =>
      obtain ⟨l1, l2, hsp⟩ := lookupCol_some_split acc c p1 hl
      refine ⟨c, p1, p, l1, l2, rest, ?_, ?_⟩
      · rw [hsp]
      · rw [insertAll, hl]
    | none =>
      have hmem : c ∉ acc.map Prod.fst := lookupCol_none_not_mem acc c hl
      have hnd2 : (((acc ++ [(c, p)]).map Prod.fst)).Nodup := by
        rw [List.map_append]
        simp [List.nodup_append, hnd, hmem]
      have hdup2 : ¬ ((((acc ++ [(c, p)]) ++ rest).map Prod.fst)).Nodup := by
        rw [List.append_assoc]
        simpa using hdup
      obtain ⟨c2, p1, p2, l1, l2, l3, hsp, hins⟩ := ih (acc ++ [(c, p)]) hnd2 hdup2
      refine ⟨c2, p1, p2, l1, l2, l3, ?_, ?_⟩
      · rw [← hsp, List.append_assoc]; simp
      · rw [insertAll, hl]; exact hins

/-- The test shape `struct {Foo string db:"foo_column"; Bar string db:"foo_column"}`:
two members independently tagged to the same column. -/
def dupTaggedShape : GoType :=
  .stCons "Foo" (some "foo_column") true false false .scalar
    (.stCons "Bar" (some "foo_column") true false false .scalar .stNil)

/-- Claim C3: whenever two members of a struct shape resolve to the same
column name, building the field index fails with `DuplicateColumnMapping`
naming that column and the two conflicting access paths (declaration-order
index sequences), the two paths being distinct occurrences of the resolution
list; the builder acts on the shape alone, not per row.  In particular the
two-fields-one-tag test shape fails naming paths [0] and [1]. -/
theorem buildIndex_duplicate_column_mapping :
    (∀ t : GoType, ¬ (((resolvedColumns "" [] 0 t).map Prod.fst).Nodup) →
      ∃ (c : String) (p1 p2 : List Nat) (l1 l2 l3 : List (String × List Nat)),
        resolvedColumns "" [] 0 t = l1 ++ (c, p1) :: l2 ++ (c, p2) :: l3 ∧
        buildIndex t = .error (.duplicateColumnMapping c p1 p2)) ∧
    buildIndex dupTaggedShape = .error (.duplicateColumnMapping "foo_column" [0] [1]) := by
  constructor
  · intro t hdup
    obtain ⟨c, p1, p2, l1, l2, l3, hsp, hins⟩ :=
      insertAll_err (resolvedColumns "" [] 0 t) [] (by simp) (by simpa using hdup)
    exact ⟨c, p1, p2, l1, l2, l3, by simpa using hsp, hins⟩
  · rfl

/-- Witness for C3 at the two-fields-one-tag shape. -/
theorem buildIndex_duplicate_column_mapping_witness :
    (¬ (((resolvedColumns "" [] 0 dupTaggedShape).map Prod.fst).Nodup)) ∧
    (∃ (c : String) (p1 p2 : List Nat) (l1 l2 l3 : List (String × List Nat)),
      resolvedColumns "" [] 0 dupTaggedShape = l1 ++ (c, p1) :: l2 ++ (c, p2) :: l3 ∧
      buildIndex dupTaggedShape = .error (.duplicateColumnMapping c p1 p2)) :=
  ⟨by decide, buildIndex_duplicate_column_mapping.1 dupTaggedShape (by decide)⟩

/-! ## The row materializer (C4, C5)

Modelled from the spec (section 4.4).  Destination values mirror the shape
encoding: a struct value is a `vCons` chain aligned with the `stCons` chain
of its type, a by-pointer field holds `ptrNil` (Go nil) until a row writes
through it, and a leaf holds the cell written into it (cells are the string
values used by the repository's tests). -/

/-- A destination value. -/
inductive GoVal where
  | leaf (s : String) : GoVal
  | vNil : GoVal
  | vCons (v : GoVal) (rest : GoVal) : GoVal
  | ptrNil : GoVal
  | ptrSome (v : GoVal) : GoVal
deriving DecidableEq

/-- The Go zero value of a shape: empty leaves, nil pointers for by-pointer
fields. -/
def zeroVal : GoType → GoVal
  | .scalar => .leaf ""
  | .stNil => .vNil
  | .stCons _ _ _ _ byPtr ftyp rest =>
    .vCons (if byPtr then .ptrNil else zeroVal ftyp) (zeroVal rest)

/-- Writing one populated cell through an access path.  A pointer field that
is still nil is allocated the first time a column beneath it is written —
the deferred-commit allocation of the spec; an already-allocated pointer is
written through. -/
def writeVal : GoType → GoVal → List Nat → String → GoVal
  | _, _, [], x => .leaf x
  | .stCons _ _ _ _ byPtr ftyp _, .vCons v0 vRest, 0 :: rest, x =>
    (match rest with
     | [] => .vCons (.leaf x) vRest
     | _ :: _ =>
       if byPtr then
         match v0 with
         | .ptrNil => .vCons (.ptrSome (writeVal ftyp (zeroVal ftyp) rest x)) vRest
         | .ptrSome w => .vCons (.ptrSome (writeVal ftyp w rest x)) vRest
         | _ => .vCons v0 vRest
       else .vCons (writeVal ftyp v0 rest x) vRest)
  | .stCons _ _ _ _ _ _ tRest, .vCons v0 vRest, (j + 1) :: rest, x =>
    .vCons v0 (writeVal tRest vRest (j :: rest) x)
  | _, v, _ :: _, _ => v

/-- The value stored in declaration slot `k` of a struct value. -/
def getSlot : GoVal → Nat → Option GoVal
  | .vCons v0 _, 0 => some v0
  | .vCons _ vRest, k + 1 => getSlot vRest k
  | _, _ => none

/-- Whether declaration slot `k` of a shape is a by-pointer field. -/
def fieldPtrAt : GoType → Nat → Option Bool
  | .stCons _ _ _ _ byPtr _ _, 0 => some byPtr
  | .stCons _ _ _ _ _ _ rest, k + 1 => fieldPtrAt rest k
  | _, _ => none

/-- The scan of a row's column list for a repeated name: the first name seen
twice. -/
def findDupGo (seen : List String) : List String → Option String
  | [] => none
  | c :: rest => if c ∈ seen then some c else findDupGo (c :: seen) rest

/-- The duplicate-column check of the materializer. -/
def findDup (cols : List String) : Option String :=
  findDupGo [] cols

/-- Row-level materialization errors (plus the propagated start-hook
failure). -/
inductive ScanErr where
  | startFailed (e : BuildErr) : ScanErr
  | duplicateColumn (column : String) : ScanErr
  | unmappedColumn (column : String) : ScanErr
deriving DecidableEq

/-- Binding and populating every column of one row, in row order: each
column is looked up in the field index (`UnmappedColumn` when absent) and
its populated cell is written through the access path. -/
def writeAll (t : GoType) (idx : List (String × List Nat)) :
    List (String × String) → GoVal → Except ScanErr GoVal
  | [], v => .ok v
  | (c, x) :: rest, v =>
    match lookupCol idx c with
    | none => .error (.unmappedColumn c)
    | some p => writeAll t idx rest (writeVal t v p x)

/-- Modelled from the spec (sections 4.4, 4.5): one scan into a struct
destination.  The start hook resolves the field index once (shape-level);
the materializer then rejects a row whose column list repeats a name with
`DuplicateColumn` before anything is scanned, and otherwise populates the
zero value of the shape. -/
def doScanStruct (t : GoType) (row : List (String × String)) : Except ScanErr GoVal :=
  match buildIndex t with
  | .error e => .error (.startFailed e)
  | .ok idx =>
    match findDup (row.map Prod.fst) with
    | some c => .error (.duplicateColumn c)
    | none => writeAll t idx row (zeroVal t)

/-- Modelled from the spec (section 4.4): one scan into a mapping
destination — the same duplicate-column rejection, then one entry per
column with the row's populated value. -/
def doScanMap (row : List (String × String)) : Except ScanErr (List (String × String)) :=
  match findDup (row.map Prod.fst) with
  | some c => .error (.duplicateColumn c)
  | none => .ok row

/-! ### findDup facts -/

lemma findDupGo_some : ∀ (l seen : List String) (c : String),
    findDupGo seen l = some c → c ∈ l ∧ (c ∈ seen ∨ 2 ≤ l.count c) := by
  intro l
  induction l with
  | nil => intro seen c h; simp [findDupGo] at h
  | cons y ys ih =>
    intro seen c h
    rw [findDupGo] at h
    by_cases hy : y ∈ seen
    · rw [if_pos hy] at h
      cases h
      exact ⟨List.mem_cons_self y ys, Or.inl hy⟩
    · rw [if_neg hy] at h
      obtain ⟨hcin, hor⟩ := ih (y :: seen) c h
      refine ⟨List.mem_cons_of_mem y hcin, ?_⟩
      cases hor with
      | inl hcs =>
        rw [List.mem_cons] at hcs
        cases hcs with
        | inl hcy =>
          subst hcy
          right
          have h1 : 1 ≤ ys.count c := List.count_pos_iff.mpr hcin
          rw [List.count_cons_self]
          omega
        | inr hcseen => exact Or.inl hcseen
      | inr hcount =>
        right
        rw [List.count_cons]
        omega

lemma findDupGo_progress : ∀ (l seen : List String),
    ((∃ x ∈ seen, x ∈ l) ∨ ¬ l.Nodup) → ∃ c, findDupGo seen l = some c := by
  intro l
  induction l with
  | nil =>
    intro seen h
    rcases h with ⟨x, _, hx⟩ | hnd
    · simp at hx
    · exact absurd List.nodup_nil hnd
  | cons y ys ih =>
    intro seen h
    by_cases hy : y ∈ seen
    · exact ⟨y, by rw [findDupGo, if_pos hy]⟩
    · have hstep : ∀ c, findDupGo (y :: seen) ys = some c →
          findDupGo seen (y :: ys) = some c := by
        intro c hc
        rw [findDupGo, if_neg hy]
        exact hc
      have h2 : (∃ x ∈ y :: seen, x ∈ ys) ∨ ¬ ys.Nodup := by
        rcases h with ⟨x, hxs, hxl⟩ | hnd
        · rw [List.mem_cons] at hxl
          cases hxl with
          | inl hxy => exact absurd (hxy ▸ hxs) hy
          | inr hxys => exact Or.inl ⟨x, List.mem_cons_of_mem y hxs, hxys⟩
        · rw [List.nodup_cons] at hnd
          push_neg at hnd
          by_cases hyy : y ∈ ys
          · exact Or.inl ⟨y, List.mem_cons_self y seen, hyy⟩
          · exact Or.inr (hnd hyy)
      obtain ⟨c, hc⟩ := ih (y :: seen) h2
      exact ⟨c, hstep c hc⟩

lemma findDup_spec {l : List String} (h : ¬ l.Nodup) :
    ∃ c, findDup l = some c ∧ 2 ≤ l.count c := by
  obtain ⟨c, hc⟩ := findDupGo_progress l [] (Or.inr h)
  obtain ⟨hcin, hor⟩ := findDupGo_some l [] c hc
  rcases hor with hcs | hcount
  · simp at hcs
  · exact ⟨c, hc, hcount⟩

/-- The test shape `struct {Foo string}` and a row repeating the column
`foo`. -/
def fooShape : GoType := .stCons "Foo" none true false false .scalar .stNil

/-- A row whose column list contains `foo` twice. -/
def dupRow : List (String × String) := [("foo", "foo val"), ("foo", "bar val")]

/-- Claim C5: a row whose column list repeats a name fails materialization
immediately with `DuplicateColumn` naming a column that occurs at least
twice, for struct and mapping destinations alike, and no value is scanned
(the scan returns only the error). -/
theorem scan_duplicate_row_column (t : GoType) (idx : List (String × List Nat))
    (row : List (String × String))
    (hidx : buildIndex t = .ok idx)
    (hdup : ¬ ((row.map Prod.fst).Nodup)) :
    ∃ c : String,
      doScanStruct t row = .error (.duplicateColumn c) ∧
      doScanMap row = .error (.duplicateColumn c) ∧
      2 ≤ (row.map Prod.fst).count c := by
  obtain ⟨c, hfd, hcount⟩ := findDup_spec hdup
  exact ⟨c, by rw [doScanStruct, hidx, hfd], by rw [doScanMap, hfd], hcount⟩

/-- Witness for C5 at the test shape and the duplicated row, for both
destination shapes. -/
theorem scan_duplicate_row_column_witness :
    (buildIndex fooShape = .ok [("foo", [0])]) ∧
    (¬ (((dupRow.map Prod.fst)).Nodup)) ∧
    (∃ c : String,
      doScanStruct fooShape dupRow = .error (.duplicateColumn c) ∧
      doScanMap dupRow = .error (.duplicateColumn c) ∧
      2 ≤ ((dupRow.map Prod.fst)).count c) :=
  ⟨by rfl, by decide,
    scan_duplicate_row_column fooShape [("foo", [0])] dupRow (by rfl) (by decide)⟩

/-! ### Access paths produced by resolution -/

lemma resolvedColumns_unexported (pfx : String) (path : List Nat) (i : Nat)
    (nm : String) (tg : Option String) (embedded byPtr : Bool) (ftyp rest : GoType) :
    resolvedColumns pfx path i (.stCons nm tg false embedded byPtr ftyp rest) =
      resolvedColumns pfx path (i + 1) rest := by
  cases tg <;> rfl

lemma resolvedColumns_tagged (pfx : String) (path : List Nat) (i : Nat)
    (nm t : String) (embedded byPtr : Bool) (ftyp rest : GoType) :
    resolvedColumns pfx path i (.stCons nm (some t) true embedded byPtr ftyp rest) =
      (if t = "-" then []
       else if embedded then
         match ftyp with
         | .scalar => [(colKey pfx t, path ++ [i])]
         | _ => resolvedColumns (colKey pfx t) (path ++ [i]) 0 ftyp
       else [(colKey pfx t, path ++ [i])])
      ++ resolvedColumns pfx path (i + 1) rest := rfl

lemma resolvedColumns_untagged (pfx : String) (path : List Nat) (i : Nat)
    (nm : String) (embedded byPtr : Bool) (ftyp rest : GoType) :
    resolvedColumns pfx path i (.stCons nm none true embedded byPtr ftyp rest) =
      (if embedded then
         match ftyp with
         | .scalar => [(colKey pfx (toSnakeCase nm), path ++ [i])]
         | _ => resolvedColumns pfx (path ++ [i]) 0 ftyp
       else [(colKey pfx (toSnakeCase nm), path ++ [i])])
      ++ resolvedColumns pfx path (i + 1) rest := rfl

lemma resolvedColumns_path :
    ∀ (t : GoType) (pfx : String) (path : List Nat) (i : Nat) (c : String) (p : List Nat),
      (c, p) ∈ resolvedColumns pfx path i t → ∃ s, p = path ++ s ∧ s ≠ [] := by
  intro t
  induction t with
  | scalar => intro pfx path i c p h; simp [resolvedColumns] at h
  | stNil => intro pfx path i c p h; simp [resolvedColumns] at h
  | stCons nm tg exported embedded byPtr ftyp rest ihf ihr =>
    intro pfx path i c p h
    have hsingle : ∀ key : String, (c, p) = (key, path ++ [i]) →
        ∃ s, p = path ++ s ∧ s ≠ [] := by
      intro key hm
      have hp : p = path ++ [i] := congrArg Prod.snd hm
      exact ⟨[i], hp, by simp⟩
    have hrec : ∀ pfx2 : String, (c, p) ∈ resolvedColumns pfx2 (path ++ [i]) 0 ftyp →
        ∃ s, p = path ++ s ∧ s ≠ [] := by
      intro pfx2 hm
      obtain ⟨s, hs, _⟩ := ihf pfx2 (path ++ [i]) 0 c p hm
      exact ⟨[i] ++ s, by rw [hs, List.append_assoc], by simp⟩
    cases exported with
    | false =>
      rw [resolvedColumns_unexported] at h
      exact ihr pfx path (i + 1) c p h
    | true =>
      cases tg with
      | some t0 =>
        rw [resolvedColumns_tagged, List.mem_append] at h
        rcases h with h1 | h2
        · by_cases ht : t0 = "-"
          · rw [if_pos ht] at h1
            simp at h1
          · rw [if_neg ht] at h1
            cases embedded with
            | false =>
              rw [if_neg Bool.false_ne_true] at h1
              exact hsingle _ (List.mem_singleton.mp h1)
            | true =>
              rw [if_pos rfl] at h1
              cases ftyp with
              | scalar => exact hsingle _ (List.mem_singleton.mp h1)
              | stNil => exact hrec _ h1
              | stCons _ _ _ _ _ _ _ => exact hrec _ h1
        · exact ihr pfx path (i + 1) c p h2
      | none =>
        rw [resolvedColumns_untagged, List.mem_append] at h
        rcases h with h1 | h2
        · cases embedded with
          | false =>
            rw [if_neg Bool.false_ne_true] at h1
            exact hsingle _ (List.mem_singleton.mp h1)
          | true =>
            rw [if_pos rfl] at h1
            cases ftyp with
            | scalar => exact hsingle _ (List.mem_singleton.mp h1)
            | stNil => exact hrec _ h1
            | stCons _ _ _ _ _ _ _ => exact hrec _ h1
        · exact ihr pfx path (i + 1) c p h2

lemma lookupCol_some_mem (l : List (String × List Nat)) (c : String) (p : List Nat)
    (h : lookupCol l c = some p) : (c, p) ∈ l := by
  obtain ⟨l1, l2, hsp⟩ := lookupCol_some_split l c p h
  rw [hsp]
  simp

/-! ### Writing through access paths and pointer slots -/

lemma writeVal_zero (nm : String) (tg : Option String) (e em bp : Bool)
    (ftyp tRest : GoType) (v0 vRest : GoVal) (rest : List Nat) (x : String) :
    writeVal (.stCons nm tg e em bp ftyp tRest) (.vCons v0 vRest) (0 :: rest) x =
      (match rest with
       | [] => .vCons (.leaf x) vRest
       | _ :: _ =>
         if bp then
           match v0 with
           | .ptrNil => .vCons (.ptrSome (writeVal ftyp (zeroVal ftyp) rest x)) vRest
           | .ptrSome w => .vCons (.ptrSome (writeVal ftyp w rest x)) vRest
           | _ => .vCons v0 vRest
         else .vCons (writeVal ftyp v0 rest x) vRest) := rfl

lemma writeVal_succ (nm : String) (tg : Option String) (e em bp : Bool)
    (ftyp tRest : GoType) (v0 vRest : GoVal) (j : Nat) (rest : List Nat) (x : String) :
    writeVal (.stCons nm tg e em bp ftyp tRest) (.vCons v0 vRest) ((j + 1) :: rest) x =
      .vCons v0 (writeVal tRest vRest (j :: rest) x) := rfl

lemma getSlot_writeVal_ne : ∀ (t : GoType) (v : GoVal) (j k : Nat)
    (rest : List Nat) (x : String), j ≠ k →
    getSlot (writeVal t v (j :: rest) x) k = getSlot v k := by
  intro t
  induction t with
  | scalar => intro v j k rest x h; cases v <;> rfl
  | stNil => intro v j k rest x h; cases v <;> rfl
  | stCons nm tg e em bp ftyp tRest ihf ihr =>
    intro v j k rest x h
    cases v with
    | leaf s => rfl
    | vNil => rfl
    | ptrNil => rfl
    | ptrSome w => rfl
    | vCons v0 vRest =>
      cases j with
      | zero =>
        cases k with
        | zero => exact absurd rfl h
        | succ k2 =>
          rw [writeVal_zero]
          cases rest with
          | nil => rfl
          | cons r1 r2 =>
            cases bp with
            | false => rfl
            | true => cases v0 <;> rfl
      | succ j2 =>
        rw [writeVal_succ]
        cases k with
        | zero => rfl
        | succ k2 =>
          show getSlot (writeVal tRest vRest (j2 :: rest) x) k2 = getSlot vRest k2
          exact ihr vRest j2 k2 rest x (by omega)

lemma getSlot_writeVal_eq : ∀ (t : GoType) (v : GoVal) (k : Nat)
    (tl : List Nat) (x : String) (w0 : GoVal),
    fieldPtrAt t k = some true → getSlot v k = some w0 →
    ∃ w1, getSlot (writeVal t v (k :: tl) x) k = some w1 ∧ w1 ≠ .ptrNil := by
  intro t
  induction t with
  | scalar => intro v k tl x w0 hptr _; cases k <;> exact Option.noConfusion hptr
  | stNil => intro v k tl x w0 hptr _; cases k <;> exact Option.noConfusion hptr
  | stCons nm tg e em bp ftyp tRest ihf ihr =>
    intro v k tl x w0 hptr hslot
    cases v with
    | leaf s => cases k <;> exact Option.noConfusion hslot
    | vNil => cases k <;> exact Option.noConfusion hslot
    | ptrNil => cases k <;> exact Option.noConfusion hslot
    | ptrSome w => cases k <;> exact Option.noConfusion hslot
    | vCons v0 vRest =>
      cases k with
      | zero =>
        have hbp : bp = true := by injection hptr
        subst hbp
        rw [writeVal_zero]
        cases tl with
        | nil => exact ⟨.leaf x, rfl, fun hc => GoVal.noConfusion hc⟩
        | cons t1 t2 =>
          rw [if_pos rfl]
          cases v0 with
          | ptrNil =>
            exact ⟨.ptrSome (writeVal ftyp (zeroVal ftyp) (t1 :: t2) x), rfl,
              fun hc => GoVal.noConfusion hc⟩
          | ptrSome w =>
            exact ⟨.ptrSome (writeVal ftyp w (t1 :: t2) x), rfl,
              fun hc => GoVal.noConfusion hc⟩
          | leaf s => exact ⟨.leaf s, rfl, fun hc => GoVal.noConfusion hc⟩
          | vNil => exact ⟨.vNil, rfl, fun hc => GoVal.noConfusion hc⟩
          | vCons a b => exact ⟨.vCons a b, rfl, fun hc => GoVal.noConfusion hc⟩
      | succ k2 =>
        rw [writeVal_succ]
        obtain ⟨w1, hw1, hne⟩ := ihr vRest k2 tl x w0 hptr hslot
        exact ⟨w1, hw1, hne⟩

lemma zeroVal_slot : ∀ (t : GoType) (k : Nat), fieldPtrAt t k = some true →
    getSlot (zeroVal t) k = some .ptrNil := by
  intro t
  induction t with
  | scalar => intro k h; cases k <;> exact Option.noConfusion h
  | stNil => intro k h; cases k <;> exact Option.noConfusion h
  | stCons nm tg e em bp ftyp tRest ihf ihr =>
    intro k h
    cases k with
    | zero =>
      have hbp : bp = true := by injection h
      subst hbp
      rfl
    | succ k2 => exact ihr k2 h

/-- The pointer slot of the destination after a row: nil exactly when the
row wrote nothing beneath it. -/
lemma writeAll_slot : ∀ (row : List (String × String)) (t : GoType)
    (idx : List (String × List Nat)) (v0 v : GoVal) (k : Nat) (w0 : GoVal),
    fieldPtrAt t k = some true →
    (∀ c p, lookupCol idx c = some p → p ≠ []) →
    writeAll t idx row v0 = .ok v →
    getSlot v0 k = some w0 →
    ∃ w, getSlot v k = some w ∧
      (w = .ptrNil ↔ (w0 = .ptrNil ∧
        ¬ ∃ pr ∈ row, ∃ tl, lookupCol idx pr.1 = some (k :: tl))) := by
  intro row
  induction row with
  | nil =>
    intro t idx v0 v k w0 hptr hpaths hwa hslot
    rw [writeAll] at hwa
    injection hwa with hv
    subst hv
    exact ⟨w0, hslot, by simp⟩
  | cons pr rest ih =>
    obtain ⟨c, x⟩ := pr
    intro t idx v0 v k w0 hptr hpaths hwa hslot
    rw [writeAll] at hwa
    cases hl : lookupCol idx c with
    | none => rw [hl] at hwa; cases hwa
    | some p =>
      rw [hl] at hwa
      obtain ⟨j, tl, hp⟩ : ∃ j tl, p = j :: tl := by
        cases p with
        | nil => exact absurd rfl (hpaths c [] hl)
        | cons j tl => exact ⟨j, tl, rfl⟩
      subst hp
      by_cases hjk : j = k
      · subst hjk
        obtain ⟨w1, hw1, hw1ne⟩ := getSlot_writeVal_eq t v0 j tl x w0 hptr hslot
        obtain ⟨w, hw, hiff⟩ := ih t idx _ v j w1 hptr hpaths hwa hw1
        refine ⟨w, hw, ?_⟩
        constructor
        · intro hwnil
          exact absurd (hiff.mp hwnil).1 hw1ne
        · rintro ⟨_, hno⟩
          exact absurd ⟨(c, x), List.mem_cons_self _ _, tl, hl⟩ hno
      · have hslot2 : getSlot (writeVal t v0 (j :: tl) x) k = some w0 := by
          rw [getSlot_writeVal_ne t v0 j k tl x hjk]
          exact hslot
        obtain ⟨w, hw, hiff⟩ := ih t idx _ v k w0 hptr hpaths hwa hslot2
        refine ⟨w, hw, ?_⟩
        rw [hiff]
        have hx : ¬ ∃ tl2, lookupCol idx c = some (k :: tl2) := by
          rintro ⟨tl2, htl2⟩
          rw [hl] at htl2
          injection htl2 with h3
          injection h3 with h4 h5
          exact hjk h4
        constructor
        · rintro ⟨hw0, hno⟩
          refine ⟨hw0, ?_⟩
          rintro ⟨pr2, hpr2, tl2, hlk⟩
          rw [List.mem_cons] at hpr2
          cases hpr2 with
          | inl heq =>
            subst heq
            exact hx ⟨tl2, hlk⟩
          | inr hm => exact hno ⟨pr2, hm, tl2, hlk⟩
        · rintro ⟨hw0, hno⟩
          exact ⟨hw0, fun ⟨pr2, hpr2, tl2, hlk⟩ =>
            hno ⟨pr2, List.mem_cons_of_mem _ hpr2, tl2, hlk⟩⟩

/-- The test shape `struct {*FooNested; Foo string; Bar string}`: a
pointer-typed embedded member whose single field resolves to `foo_nested`. -/
def ptrEmbShape : GoType :=
  .stCons "FooNested" none true true true
    (.stCons "FooNested" none true false false .scalar .stNil)
    (.stCons "Foo" none true false false .scalar
      (.stCons "Bar" none true false false .scalar .stNil))

/-- The field index of `ptrEmbShape`. -/
def ptrEmbIdx : List (String × List Nat) :=
  [("foo_nested", [0, 0]), ("foo", [1]), ("bar", [2])]

/-- A row that populates a column beneath the pointer member. -/
def rowWithNested : List (String × String) :=
  [("foo", "foo val"), ("bar", "bar val"), ("foo_nested", "foo nested val")]

/-- A row that populates no column beneath the pointer member. -/
def rowWithoutNested : List (String × String) :=
  [("foo", "foo val"), ("bar", "bar val")]

/-- The expected destination when the nested column is populated: the
pointer is allocated and its field holds the row value. -/
def valWithNested : GoVal :=
  .vCons (.ptrSome (.vCons (.leaf "foo nested val") .vNil))
    (.vCons (.leaf "foo val") (.vCons (.leaf "bar val") .vNil))

/-- The expected destination when no nested column occurs: the pointer
stays nil. -/
def valWithoutNested : GoVal :=
  .vCons .ptrNil (.vCons (.leaf "foo val") (.vCons (.leaf "bar val") .vNil))

/-- Claim C4: after a successful struct scan, a by-pointer member's slot is
still nil exactly when no column of the row maps to a path beneath that
member; the two test rows exhibit both directions, the populated one also
delivering the row's value through the freshly allocated pointer. -/
theorem scan_lazy_pointer_allocation :
    (∀ (t : GoType) (idx : List (String × List Nat)) (row : List (String × String))
        (v : GoVal) (k : Nat),
      buildIndex t = .ok idx → doScanStruct t row = .ok v →
      fieldPtrAt t k = some true →
      (getSlot v k = some GoVal.ptrNil ↔
        ¬ ∃ pr ∈ row, ∃ tl, lookupCol idx pr.1 = some (k :: tl))) ∧
    doScanStruct ptrEmbShape rowWithNested = .ok valWithNested ∧
    doScanStruct ptrEmbShape rowWithoutNested = .ok valWithoutNested := by
  refine ⟨?_, by rfl, by rfl⟩
  intro t idx row v k hidx hscan hptr
  rw [doScanStruct, hidx] at hscan
  cases hfd : findDup (row.map Prod.fst) with
  | some c => rw [hfd] at hscan; cases hscan
  | none =>
    rw [hfd] at hscan
    have hidx2 : idx = resolvedColumns "" [] 0 t := by
      rw [buildIndex] at hidx
      have h2 := insertAll_ok_eq (resolvedColumns "" [] 0 t) [] idx hidx
      simpa using h2
    have hpaths : ∀ c p, lookupCol idx c = some p → p ≠ [] := by
      intro c p hl
      have hmem : (c, p) ∈ idx := lookupCol_some_mem idx c p hl
      rw [hidx2] at hmem
      obtain ⟨s, hs, hne⟩ := resolvedColumns_path t "" [] 0 c p hmem
      rw [hs]
      simpa using hne
    have hzero : getSlot (zeroVal t) k = some .ptrNil := zeroVal_slot t k hptr
    obtain ⟨w, hw, hiff⟩ :=
      writeAll_slot row t idx (zeroVal t) v k .ptrNil hptr hpaths hscan hzero
    constructor
    · intro hnil
      rw [hw] at hnil
      injection hnil with hweq
      exact (hiff.mp hweq).2
    · intro hno
      rw [hw, hiff.mpr ⟨rfl, hno⟩]

/-- Witness for C4 at the unpopulated row: the pointer slot is nil and no
row column maps beneath slot 0. -/
theorem scan_lazy_pointer_allocation_witness :
    (buildIndex ptrEmbShape = .ok ptrEmbIdx) ∧
    (doScanStruct ptrEmbShape rowWithoutNested = .ok valWithoutNested) ∧
    (fieldPtrAt ptrEmbShape 0 = some true) ∧
    (getSlot valWithoutNested 0 = some GoVal.ptrNil ↔
      ¬ ∃ pr ∈ rowWithoutNested, ∃ tl, lookupCol ptrEmbIdx pr.1 = some (0 :: tl)) :=
  ⟨by rfl, by rfl, by rfl,
    scan_lazy_pointer_allocation.1 ptrEmbShape ptrEmbIdx rowWithoutNested
      valWithoutNested 0 (by rfl) (by rfl) (by rfl)⟩

end Scany
